import Mathlib

/-!
Shallow embedding of `src/vscode-client/extension.ts` (ghdl-language-server
VSCode client), covering the pieces the specification talks about:

* the `DisposableMap` registry class (fields and methods keep the source
  names: `m_map`, `has`, `set`, `dispose_and_delete`, `dispose`);
* the connection-manager functions `restart_client` and `deactivate`;
* a small-step interleaving model of two concurrent `restart_client`
  invocations under the cooperative single-threaded (async/await) model.

A `vscode.Disposable` stored in the map is modelled by an opaque identifier
(a `Nat`); the only thing the registry ever does to one is call its
`dispose()` method, so the effect of those calls is recorded in a ghost
event log `disposed : List Nat` (the sequence of dispose calls issued, in
order).  A JavaScript `Map<string, Disposable>` is modelled by an
insertion-ordered association list; a `Map` cannot hold two entries with
the same key, `Map.set` appends a fresh key at the end of the iteration
order, `Map.delete key` removes the entry for `key`, and
`Map.forEach` visits entries in insertion order.
-/

/-- The state of one `DisposableMap` object together with the ghost log of
`dispose()` calls the registry has issued on stored disposables. -/
structure DisposableMap where
  m_map : List (String × Nat)
  disposed : List Nat
deriving DecidableEq, Repr

/-- `has(key)` from the source: `return this.m_map.has(key)`. -/
def DisposableMap.has (dm : DisposableMap) (key : String) : Bool :=
  dm.m_map.any (fun e => e.1 == key)

/-- The value stored under `key`, i.e. `this.m_map.get(key)`. -/
def DisposableMap.get (dm : DisposableMap) (key : String) : Option Nat :=
  (dm.m_map.find? (fun e => e.1 == key)).map Prod.snd

/-- `set(key, disposable)` from the source: if the key is absent, insert the
entry (at the end of the iteration order, as `Map.set` does for a fresh key)
and return `true`; otherwise leave everything alone and return `false`. -/
def DisposableMap.set (dm : DisposableMap) (key : String) (disposable : Nat) :
    DisposableMap × Bool :=
  if !(dm.has key) then
    ({ dm with m_map := dm.m_map ++ [(key, disposable)] }, true)
  else
    (dm, false)

/-- `dispose_and_delete(key)` from the source: if the key is present, call
`dispose()` on the stored disposable (recorded in the ghost log), remove the
entry for `key` (`Map.delete`; the filter removes the entry with that key —
a JavaScript `Map` holds at most one) and return `true`; otherwise return
`false` and change nothing. -/
def DisposableMap.dispose_and_delete (dm : DisposableMap) (key : String) :
    DisposableMap × Bool :=
  if dm.has key then
    match dm.get key with
    | some d =>
        ({ m_map := dm.m_map.filter (fun e => !(e.1 == key)),
           disposed := dm.disposed ++ [d] }, true)
    | none => (dm, false)
  else
    (dm, false)

/-- `dispose()` from the source: `this.m_map.forEach((disposable, key) =>
disposable.dispose())` — iterate over the entries in insertion order calling
`dispose()` on each stored disposable, removing nothing. -/
def DisposableMap.dispose (dm : DisposableMap) : DisposableMap :=
  dm.m_map.foldl (fun acc e => { acc with disposed := acc.disposed ++ [e.2] }) dm

/-- The keys of the registry, in iteration order. -/
def DisposableMap.keys (dm : DisposableMap) : List String :=
  dm.m_map.map Prod.fst

/-- The representation invariant a JavaScript `Map` guarantees: at most one
entry per key. -/
def keysNodup (dm : DisposableMap) : Prop :=
  dm.keys.Nodup

instance (dm : DisposableMap) : Decidable (keysNodup dm) := by
  unfold keysNodup; infer_instance

/-- One mutating call against the registry, as issued by the surrounding
glue code in `activate`. -/
inductive RegOp
  | setOp (key : String) (d : Nat)
  | delOp (key : String)
  | disposeOp
deriving Repr

/-- Apply one registry call, returning the new state and the boolean result
(`disposeOp` has no result; `true` is used as a dummy). -/
def runOp (dm : DisposableMap) : RegOp → DisposableMap × Bool
  | .setOp k d => dm.set k d
  | .delOp k => dm.dispose_and_delete k
  | .disposeOp => (dm.dispose, true)

/-- Run a sequence of registry calls. -/
def runOps (dm : DisposableMap) : List RegOp → DisposableMap
  | [] => dm
  | op :: ops => runOps (runOp dm op).1 ops

/-- Run a sequence of registry calls, also tallying the number of `set`
calls that returned `true` and the number of `dispose_and_delete` calls
that returned `true`. -/
def runTally (dm : DisposableMap) : List RegOp → DisposableMap × Nat × Nat
  | [] => (dm, 0, 0)
  | op :: ops =>
      let r := runOp dm op
      let t := runTally r.1 ops
      match op with
      | .setOp _ _ => (t.1, (if r.2 then 1 else 0) + t.2.1, t.2.2)
      | .delOp _ => (t.1, t.2.1, (if r.2 then 1 else 0) + t.2.2)
      | .disposeOp => t

/-- The empty registry (fresh `new DisposableMap()`), with an empty ghost
log. -/
def emptyDM : DisposableMap := ⟨[], []⟩

/-!
Connection manager.  The module-level `client` variable holds a
`LanguageClient` once `activate` has run, and is `undefined` before
(`Option` here).  A `LanguageClient` is abstracted to the three states its
`needsStop` / `needsStart` predicates distinguish for this code: `running`
(started, `needsStop()` true), `stopping` (a `stop()` promise is pending),
and `stopped` (`needsStart()` true).
-/

/-- The abstract state of the `LanguageClient` connection handle. -/
inductive ClientState
  | running
  | stopping
  | stopped
deriving DecidableEq, Repr

/-- `client.needsStop()`: true when the connection is live. -/
def needsStop : ClientState → Bool
  | .running => true
  | _ => false

/-- `client.needsStart()`: true when the connection is fully stopped. -/
def needsStart : ClientState → Bool
  | .stopped => true
  | _ => false

/-- Externally visible effects issued on the connection handle. -/
inductive ClientAction
  | stopA
  | startA
deriving DecidableEq, Repr

/-- `restart_client()` from the source, run without interference (no other
callback interleaves with it): `if (client) { if (client.needsStop()) {
await client.stop(); } if (client.needsStart()) { client.start(); } }`.
Returns the new value of the `client` variable (never reassigned) paired
with the client state and the list of effects issued, in order. -/
def restart_client (client : Option ClientState) :
    Option ClientState × List ClientAction :=
  match client with
  | none => (none, [])
  | some c =>
      let afterStop := if needsStop c then (ClientState.stopped, [ClientAction.stopA])
                       else (c, [])
      if needsStart afterStop.1 then
        (some ClientState.running, afterStop.2 ++ [ClientAction.startA])
      else
        (some afterStop.1, afterStop.2)

/-- `client.stop()`: stopping any client leaves it in the stopped state. -/
def stopClient (_ : ClientState) : ClientState := ClientState.stopped

/-- `deactivate()` from the source: `if (!client) { return undefined; }
return client.stop();`.  First component: the value returned (`none` for
`undefined`, otherwise the state the stopped client settles in); second:
the effects issued. -/
def deactivate (client : Option ClientState) :
    Option ClientState × List ClientAction :=
  match client with
  | none => (none, [])
  | some c => (some (stopClient c), [ClientAction.stopA])

/-!
Interleaving model of two `restart_client()` invocations under the
cooperative single-threaded JavaScript model.  Each invocation runs
synchronously until its first `await`; `await client.stop()` is the only
suspension point in `restart_client`, so each call is split into atomic
segments at exactly that point:

* from the top of the function through `client.stop()` being issued (or,
  when `needsStop()` is false, straight through the `needsStart()` check
  and the synchronous `client.start()` call);
* after the awaited stop promise resolves, the `needsStart()` check and
  the synchronous `client.start()` call.

Resolution of the pending stop promise is a separate scheduler event, and
a task that issued a stop can only resume after it.  The model tracks the
number of stop and start effects issued, and, as ghost state, whether the
second invocation's first segment ran while the connection was still
running (i.e. whether it was "invoked in rapid succession" before the
first restart had completed).
-/

/-- The program counter of one `restart_client()` invocation. -/
inductive TaskPC
  | entry
  | awaitingStop
  | finished
deriving DecidableEq, Repr

/-- Global state: the connection, both tasks, effect counters, and the
ghost observation for task 2's first segment (`none` until it runs, then
`some b` where `b` records whether the connection was running). -/
structure Sys where
  cs : ClientState
  pc1 : TaskPC
  pc2 : TaskPC
  stops : Nat
  starts : Nat
  sawRunning : Option Bool
deriving DecidableEq, Repr

/-- Scheduler events: run a segment of task 1 or task 2, or resolve the
pending stop promise. -/
inductive Sched
  | run1
  | run2
  | resolveStop
deriving DecidableEq, Repr

/-- One atomic segment of `restart_client()` for the task at `pc`, acting
on connection state `c`; returns the new connection state, new pc, and the
numbers of stop and start effects issued by the segment.  A task at
`awaitingStop` is not resumable while its stop promise is unresolved
(`c = stopping`). -/
def taskSeg (c : ClientState) (pc : TaskPC) :
    ClientState × TaskPC × Nat × Nat :=
  match pc with
  | .entry =>
      if needsStop c then (ClientState.stopping, TaskPC.awaitingStop, 1, 0)
      else if needsStart c then (ClientState.running, TaskPC.finished, 0, 1)
      else (c, TaskPC.finished, 0, 0)
  | .awaitingStop =>
      match c with
      | .stopping => (c, TaskPC.awaitingStop, 0, 0)
      | _ =>
          if needsStart c then (ClientState.running, TaskPC.finished, 0, 1)
          else (c, TaskPC.finished, 0, 0)
  | .finished => (c, TaskPC.finished, 0, 0)

/-- One scheduler step.  An event whose task (or promise) is not ready is
a stutter. -/
def stepF (s : Sys) : Sched → Sys
  | .run1 =>
      let r := taskSeg s.cs s.pc1
      { s with cs := r.1, pc1 := r.2.1,
               stops := s.stops + r.2.2.1, starts := s.starts + r.2.2.2 }
  | .run2 =>
      let r := taskSeg s.cs s.pc2
      { s with cs := r.1, pc2 := r.2.1,
               stops := s.stops + r.2.2.1, starts := s.starts + r.2.2.2,
               sawRunning :=
                 match s.pc2, s.sawRunning with
                 | .entry, none => some (needsStop s.cs)
                 | _, o => o }
  | .resolveStop =>
      match s.cs with
      | .stopping => { s with cs := ClientState.stopped }
      | _ => s

/-- Run a whole schedule. -/
def runSched (s : Sys) (σ : List Sched) : Sys :=
  σ.foldl stepF s

/-- Both restarts invoked on a running connection, neither yet run. -/
def initSys : Sys :=
  { cs := ClientState.running, pc1 := TaskPC.entry, pc2 := TaskPC.entry,
    stops := 0, starts := 0, sawRunning := none }

/-!
Helper lemmas about the registry operations.
-/

theorem has_iff_mem (dm : DisposableMap) (k : String) :
    dm.has k = true ↔ ∃ d, (k, d) ∈ dm.m_map := by
  unfold DisposableMap.has
  rw [List.any_eq_true]
  constructor
  · rintro ⟨⟨k1, d⟩, he, hp⟩
    simp only [beq_iff_eq] at hp
    subst hp
    exact ⟨d, he⟩
  · rintro ⟨d, hd⟩
    exact ⟨(k, d), hd, by simp⟩

theorem has_false_iff (dm : DisposableMap) (k : String) :
    dm.has k = false ↔ ∀ e ∈ dm.m_map, e.1 ≠ k := by
  unfold DisposableMap.has
  rw [List.any_eq_false]
  simp

theorem set_of_has_false (dm : DisposableMap) (k : String) (s : Nat)
    (h : dm.has k = false) :
    dm.set k s = (⟨dm.m_map ++ [(k, s)], dm.disposed⟩, true) := by
  simp [DisposableMap.set, h]

theorem set_of_has_true (dm : DisposableMap) (k : String) (s : Nat)
    (h : dm.has k = true) :
    dm.set k s = (dm, false) := by
  simp [DisposableMap.set, h]

theorem find?_eq_none_of_has_false (dm : DisposableMap) (k : String)
    (h : dm.has k = false) :
    dm.m_map.find? (fun e => e.1 == k) = none := by
  rw [List.find?_eq_none]
  intro e he
  have := (has_false_iff dm k).1 h e he
  simpa using this

theorem get_set_self (dm : DisposableMap) (k : String) (s : Nat)
    (h : dm.has k = false) :
    (dm.set k s).1.get k = some s := by
  rw [set_of_has_false dm k s h]
  unfold DisposableMap.get
  rw [List.find?_append, find?_eq_none_of_has_false dm k h]
  simp

theorem get_some_of_has (dm : DisposableMap) (k : String)
    (h : dm.has k = true) :
    ∃ d, dm.get k = some d ∧ (k, d) ∈ dm.m_map := by
  obtain ⟨d, hd⟩ := (has_iff_mem dm k).1 h
  cases hf : dm.m_map.find? (fun e => e.1 == k) with
  | none =>
      rw [List.find?_eq_none] at hf
      exact absurd (by simp : ((k, d).1 == k) = true) (hf (k, d) hd)
  | some e =>
      have hpe := List.find?_some hf
      have hmem : e ∈ dm.m_map := List.mem_of_find?_eq_some hf
      refine ⟨e.2, ?_, ?_⟩
      · unfold DisposableMap.get
        rw [hf]
        rfl
      · have : e.1 = k := by simpa using hpe
        rw [← this]
        exact hmem

theorem del_of_has_true (dm : DisposableMap) (k : String) (d : Nat)
    (hg : dm.get k = some d) (h : dm.has k = true) :
    dm.dispose_and_delete k =
      (⟨dm.m_map.filter (fun e => !(e.1 == k)), dm.disposed ++ [d]⟩, true) := by
  simp [DisposableMap.dispose_and_delete, h, hg]

theorem del_of_has_false (dm : DisposableMap) (k : String)
    (h : dm.has k = false) :
    dm.dispose_and_delete k = (dm, false) := by
  simp [DisposableMap.dispose_and_delete, h]

theorem has_filter_self (l : List (String × Nat)) (d : List Nat) (k : String) :
    (DisposableMap.mk (l.filter (fun e => !(e.1 == k))) d).has k = false := by
  unfold DisposableMap.has
  rw [List.any_eq_false]
  intro e he
  have := (List.mem_filter.1 he).2
  simp_all

theorem find?_filter_ne (l : List (String × Nat)) (k k2 : String)
    (hne : k2 ≠ k) :
    (l.filter (fun e => !(e.1 == k))).find? (fun e => e.1 == k2) =
      l.find? (fun e => e.1 == k2) := by
  induction l with
  | nil => rfl
  | cons e l ih =>
      by_cases hek : e.1 = k
      · have hp : (k == k2) = false := by
          simp only [beq_eq_false_iff_ne, ne_eq]
          exact fun hc => hne hc.symm
        simp only [List.filter_cons, List.find?_cons, hek, hp]
        simp [ih, hp]
      · have hq : (!(e.1 == k)) = true := by simp [hek]
        simp only [List.filter_cons, hq, if_true, List.find?_cons]
        cases hp : (e.1 == k2) with
        | true => rfl
        | false => exact ih

theorem foldl_dispose_eq (l : List (String × Nat)) (acc : DisposableMap) :
    l.foldl (fun acc e => { acc with disposed := acc.disposed ++ [e.2] }) acc =
      { acc with disposed := acc.disposed ++ l.map Prod.snd } := by
  induction l generalizing acc with
  | nil => simp
  | cons e l ih =>
      rw [List.foldl_cons, ih]
      simp

theorem dispose_eq (dm : DisposableMap) :
    dm.dispose = { dm with disposed := dm.disposed ++ dm.m_map.map Prod.snd } :=
  foldl_dispose_eq dm.m_map dm

theorem keysNodup_set (dm : DisposableMap) (k : String) (s : Nat)
    (h : keysNodup dm) : keysNodup (dm.set k s).1 := by
  unfold DisposableMap.set
  cases hk : dm.has k with
  | true => simpa [hk] using h
  | false =>
      simp only [hk, Bool.not_false, if_true]
      unfold keysNodup DisposableMap.keys at h ⊢
      simp only [List.map_append, List.map_cons, List.map_nil]
      rw [List.nodup_append]
      refine ⟨h, List.nodup_singleton k, ?_⟩
      intro a ha hb
      have hak : a = k := by simpa using hb
      subst hak
      obtain ⟨⟨k1, d⟩, hmem, hfst⟩ := List.mem_map.1 ha
      have : (k1, d).1 ≠ a := (has_false_iff dm a).1 hk (k1, d) hmem
      exact this hfst

theorem keysNodup_del (dm : DisposableMap) (k : String)
    (h : keysNodup dm) : keysNodup (dm.dispose_and_delete k).1 := by
  unfold DisposableMap.dispose_and_delete
  cases hk : dm.has k with
  | false => simpa [hk] using h
  | true =>
      obtain ⟨d, hg, _⟩ := get_some_of_has dm k hk
      simp only [hk, if_true, hg]
      unfold keysNodup DisposableMap.keys at h ⊢
      exact List.Nodup.sublist (List.Sublist.map Prod.fst (List.filter_sublist _)) h

theorem keysNodup_dispose (dm : DisposableMap) (h : keysNodup dm) :
    keysNodup dm.dispose := by
  rw [dispose_eq]
  exact h

theorem keysNodup_runOp (dm : DisposableMap) (op : RegOp) (h : keysNodup dm) :
    keysNodup (runOp dm op).1 := by
  cases op with
  | setOp k d => exact keysNodup_set dm k d h
  | delOp k => exact keysNodup_del dm k h
  | disposeOp => exact keysNodup_dispose dm h

theorem keysNodup_runOps (ops : List RegOp) :
    ∀ dm : DisposableMap, keysNodup dm → keysNodup (runOps dm ops) := by
  induction ops with
  | nil => exact fun dm h => h
  | cons op ops ih =>
      intro dm h
      exact ih (runOp dm op).1 (keysNodup_runOp dm op h)

theorem countP_key_eq_one (l : List (String × Nat)) (k : String)
    (hnd : (l.map Prod.fst).Nodup) (hmem : ∃ d, (k, d) ∈ l) :
    l.countP (fun e => e.1 == k) = 1 := by
  induction l with
  | nil => simp at hmem
  | cons e l ih =>
      simp only [List.map_cons, List.nodup_cons] at hnd
      obtain ⟨hnotin, hndl⟩ := hnd
      by_cases hek : e.1 = k
      · have hz : l.countP (fun e => e.1 == k) = 0 := by
          rw [List.countP_eq_zero]
          intro a ha
          simp only [beq_iff_eq]
          intro hak
          exact hnotin (by rw [← hek, ← hak] at *; exact List.mem_map_of_mem Prod.fst ha)
        rw [List.countP_cons, hz]
        simp [hek]
      · obtain ⟨d, hd⟩ := hmem
        have hd' : (k, d) ∈ l := by
          cases List.mem_cons.1 hd with
          | inl he => exact absurd (congrArg Prod.fst he).symm hek
          | inr h => exact h
        rw [List.countP_cons, ih hndl ⟨d, hd'⟩]
        simp [hek]

theorem countP_not_add (l : List (String × Nat)) (k : String) :
    l.countP (fun e => !(e.1 == k)) + l.countP (fun e => e.1 == k) =
      l.length := by
  induction l with
  | nil => rfl
  | cons e l ih =>
      rw [List.countP_cons, List.countP_cons, List.length_cons]
      cases he : (e.1 == k) with
      | true =>
          simp only [he, Bool.not_true, Bool.false_eq_true, if_false, if_true]
          omega
      | false =>
          simp only [he, Bool.not_false, Bool.false_eq_true, if_false, if_true]
          omega

theorem length_filter_del (l : List (String × Nat)) (k : String)
    (hnd : (l.map Prod.fst).Nodup) (hmem : ∃ d, (k, d) ∈ l) :
    (l.filter (fun e => !(e.1 == k))).length + 1 = l.length := by
  have h1 : (l.filter (fun e => !(e.1 == k))).length =
      l.countP (fun e => !(e.1 == k)) := (List.countP_eq_length_filter _ _).symm
  have h2 := countP_not_add l k
  rw [h1, ← countP_key_eq_one l k hnd hmem]
  omega

theorem runTally_cons_set (dm : DisposableMap) (k : String) (d : Nat)
    (ops : List RegOp) :
    runTally dm (RegOp.setOp k d :: ops) =
      ((runTally (dm.set k d).1 ops).1,
       (if (dm.set k d).2 then 1 else 0) + (runTally (dm.set k d).1 ops).2.1,
       (runTally (dm.set k d).1 ops).2.2) := rfl

theorem runTally_cons_del (dm : DisposableMap) (k : String)
    (ops : List RegOp) :
    runTally dm (RegOp.delOp k :: ops) =
      ((runTally (dm.dispose_and_delete k).1 ops).1,
       (runTally (dm.dispose_and_delete k).1 ops).2.1,
       (if (dm.dispose_and_delete k).2 then 1 else 0) +
         (runTally (dm.dispose_and_delete k).1 ops).2.2) := rfl

theorem runTally_cons_dispose (dm : DisposableMap) (ops : List RegOp) :
    runTally dm (RegOp.disposeOp :: ops) = runTally dm.dispose ops := rfl

theorem runTally_accounting (ops : List RegOp) :
    ∀ dm : DisposableMap, keysNodup dm →
      (runTally dm ops).1.m_map.length + (runTally dm ops).2.2 =
        dm.m_map.length + (runTally dm ops).2.1 := by
  induction ops with
  | nil => intro dm h; rfl
  | cons op ops ih =>
      intro dm h
      cases op with
      | setOp k d =>
          rw [runTally_cons_set]
          have hih := ih (dm.set k d).1 (keysNodup_set dm k d h)
          cases hk : dm.has k with
          | false =>
              have hset := set_of_has_false dm k d hk
              have hlen : (dm.set k d).1.m_map.length = dm.m_map.length + 1 := by
                rw [hset]; simp
              have hb : (dm.set k d).2 = true := by rw [hset]
              rw [hb]
              simp only [if_true]
              omega
          | true =>
              have hset := set_of_has_true dm k d hk
              have hlen : (dm.set k d).1.m_map.length = dm.m_map.length := by
                rw [hset]
              have hb : (dm.set k d).2 = false := by rw [hset]
              rw [hb]
              simp only [Bool.false_eq_true, if_false]
              omega
      | delOp k =>
          rw [runTally_cons_del]
          have hih := ih (dm.dispose_and_delete k).1 (keysNodup_del dm k h)
          cases hk : dm.has k with
          | true =>
              obtain ⟨d, hg, hmem⟩ := get_some_of_has dm k hk
              have hdel := del_of_has_true dm k d hg hk
              have hnd : (dm.m_map.map Prod.fst).Nodup := h
              have hlen : (dm.dispose_and_delete k).1.m_map.length + 1 =
                  dm.m_map.length := by
                rw [hdel]
                exact length_filter_del dm.m_map k hnd ⟨d, hmem⟩
              have hb : (dm.dispose_and_delete k).2 = true := by rw [hdel]
              rw [hb]
              simp only [if_true]
              omega
          | false =>
              have hdel := del_of_has_false dm k hk
              have hlen : (dm.dispose_and_delete k).1.m_map.length =
                  dm.m_map.length := by rw [hdel]
              have hb : (dm.dispose_and_delete k).2 = false := by rw [hdel]
              rw [hb]
              simp only [Bool.false_eq_true, if_false]
              omega
      | disposeOp =>
          rw [runTally_cons_dispose]
          have hih := ih dm.dispose (keysNodup_dispose dm h)
          have hlen : dm.dispose.m_map = dm.m_map := by rw [dispose_eq]
          rw [hlen] at hih
          exact hih

/-- All states reachable from `initSys` under any interleaving of the two
restart invocations and the stop-promise resolution. -/
def invSet : List Sys :=
  [⟨ClientState.running, TaskPC.entry, TaskPC.entry, 0, 0, none⟩,
   ⟨ClientState.stopping, TaskPC.awaitingStop, TaskPC.entry, 1, 0, none⟩,
   ⟨ClientState.stopping, TaskPC.entry, TaskPC.awaitingStop, 1, 0, some true⟩,
   ⟨ClientState.stopping, TaskPC.awaitingStop, TaskPC.finished, 1, 0, some false⟩,
   ⟨ClientState.stopped, TaskPC.awaitingStop, TaskPC.entry, 1, 0, none⟩,
   ⟨ClientState.stopping, TaskPC.finished, TaskPC.awaitingStop, 1, 0, some true⟩,
   ⟨ClientState.stopped, TaskPC.entry, TaskPC.awaitingStop, 1, 0, some true⟩,
   ⟨ClientState.stopped, TaskPC.awaitingStop, TaskPC.finished, 1, 0, some false⟩,
   ⟨ClientState.running, TaskPC.finished, TaskPC.entry, 1, 1, none⟩,
   ⟨ClientState.running, TaskPC.awaitingStop, TaskPC.finished, 1, 1, some false⟩,
   ⟨ClientState.stopped, TaskPC.finished, TaskPC.awaitingStop, 1, 0, some true⟩,
   ⟨ClientState.running, TaskPC.finished, TaskPC.awaitingStop, 1, 1, some true⟩,
   ⟨ClientState.running, TaskPC.entry, TaskPC.finished, 1, 1, some true⟩,
   ⟨ClientState.running, TaskPC.finished, TaskPC.finished, 1, 1, some false⟩,
   ⟨ClientState.stopping, TaskPC.finished, TaskPC.awaitingStop, 2, 1, some true⟩,
   ⟨ClientState.running, TaskPC.finished, TaskPC.finished, 1, 1, some true⟩,
   ⟨ClientState.stopping, TaskPC.awaitingStop, TaskPC.finished, 2, 1, some true⟩,
   ⟨ClientState.stopped, TaskPC.finished, TaskPC.awaitingStop, 2, 1, some true⟩,
   ⟨ClientState.stopped, TaskPC.awaitingStop, TaskPC.finished, 2, 1, some true⟩,
   ⟨ClientState.running, TaskPC.finished, TaskPC.finished, 2, 2, some true⟩]

theorem invSet_closed :
    ∀ s ∈ invSet, stepF s Sched.run1 ∈ invSet ∧ stepF s Sched.run2 ∈ invSet ∧
      stepF s Sched.resolveStop ∈ invSet := by decide

theorem initSys_mem : initSys ∈ invSet := by decide

theorem runSched_mem (σ : List Sched) :
    ∀ s ∈ invSet, runSched s σ ∈ invSet := by
  induction σ with
  | nil => exact fun s hs => hs
  | cons e σ ih =>
      intro s hs
      have hstep : stepF s e ∈ invSet := by
        obtain ⟨h1, h2, h3⟩ := invSet_closed s hs
        cases e with
        | run1 => exact h1
        | run2 => exact h2
        | resolveStop => exact h3
      exact ih (stepF s e) hstep

theorem invSet_final :
    ∀ s ∈ invSet, s.pc1 = TaskPC.finished → s.pc2 = TaskPC.finished →
      s.sawRunning = some false → s.stops = 1 ∧ s.starts = 1 := by decide

/-!
The claims.
-/

/-- C1: if `restart_client()` is invoked twice in rapid succession while the
first call's halt of the connection is still pending — i.e. in every
cooperative single-threaded interleaving in which the second invocation's
first segment runs while the connection is no longer in the running state
(`sawRunning = some false`) — then once both invocations have finished the
connection has been halted exactly once and started exactly once: a start is
only issued when the needs-start predicate holds at the time of the call, so
no such execution produces a duplicate start or more than one live
connection. -/
theorem restart_client_no_duplicate_start (σ : List Sched)
    (h1 : (runSched initSys σ).pc1 = TaskPC.finished)
    (h2 : (runSched initSys σ).pc2 = TaskPC.finished)
    (hs : (runSched initSys σ).sawRunning = some false) :
    (runSched initSys σ).stops = 1 ∧ (runSched initSys σ).starts = 1 :=
  invSet_final (runSched initSys σ) (runSched_mem σ initSys initSys_mem)
    h1 h2 hs

/-- Witness for C1: the schedule where the first invocation issues the stop,
the second invocation runs while that stop is still pending, the stop promise
then resolves, and the first invocation resumes and issues the start. -/
theorem restart_client_no_duplicate_start_witness :
    (runSched initSys
        [Sched.run1, Sched.run2, Sched.resolveStop, Sched.run1]).pc1 =
      TaskPC.finished ∧
    (runSched initSys
        [Sched.run1, Sched.run2, Sched.resolveStop, Sched.run1]).pc2 =
      TaskPC.finished ∧
    (runSched initSys
        [Sched.run1, Sched.run2, Sched.resolveStop, Sched.run1]).sawRunning =
      some false ∧
    ((runSched initSys
        [Sched.run1, Sched.run2, Sched.resolveStop, Sched.run1]).stops = 1 ∧
     (runSched initSys
        [Sched.run1, Sched.run2, Sched.resolveStop, Sched.run1]).starts = 1) :=
  ⟨by decide, by decide, by decide,
   restart_client_no_duplicate_start
     [Sched.run1, Sched.run2, Sched.resolveStop, Sched.run1]
     (by decide) (by decide) (by decide)⟩

/-- C2: `set(k, s)` on a key with no current entry stores `s` (the new entry
is appended; `get k` then yields `s`) and returns `true`, with the ghost
dispose log unchanged; on a key that already has an entry it returns `false`
and the registry state is entirely unchanged, so the previously stored
subscription remains the one registered and neither it nor the passed-in `s`
is disposed or otherwise touched by the registry. -/
theorem set_stores_or_rejects (dm : DisposableMap) (k : String) (s : Nat) :
    (dm.has k = false →
      dm.set k s = (⟨dm.m_map ++ [(k, s)], dm.disposed⟩, true) ∧
      (dm.set k s).1.get k = some s) ∧
    (dm.has k = true → dm.set k s = (dm, false)) :=
  ⟨fun h => ⟨set_of_has_false dm k s h, get_set_self dm k s h⟩,
   fun h => set_of_has_true dm k s h⟩

/-- Witness for C2: a fresh key is stored; a second `set` on the same key
fails and leaves the first entry registered. -/
theorem set_stores_or_rejects_witness :
    ((DisposableMap.mk [] []).set "/a" 1 =
        (DisposableMap.mk [("/a", 1)] [], true) ∧
     ((DisposableMap.mk [] []).set "/a" 1).1.get "/a" = some 1) ∧
    (DisposableMap.mk [("/a", 1)] []).set "/a" 2 =
      (DisposableMap.mk [("/a", 1)] [], false) :=
  ⟨(set_stores_or_rejects ⟨[], []⟩ "/a" 1).1 (by decide),
   (set_stores_or_rejects ⟨[("/a", 1)], []⟩ "/a" 2).2 (by decide)⟩

/-- C3: for any registry state, key `k` and distinct key `k2`:
`dispose_and_delete(k)` with `k` registered returns `true`, disposes exactly
the subscription stored under `k` (the ghost dispose log grows by exactly
that one entry, so no other subscription is disposed), removes the entry
(`has k` is false afterwards) and leaves the entry registered under any other
key unchanged; with `k` absent it returns `false` and the registry state is
entirely unchanged (atomicity on the error path). -/
theorem dispose_and_delete_spec (dm : DisposableMap) (k k2 : String)
    (hne : k2 ≠ k) :
    (dm.has k = true →
      ∃ d, dm.get k = some d ∧
        (dm.dispose_and_delete k).2 = true ∧
        (dm.dispose_and_delete k).1.disposed = dm.disposed ++ [d] ∧
        (dm.dispose_and_delete k).1.has k = false ∧
        (dm.dispose_and_delete k).1.get k2 = dm.get k2) ∧
    (dm.has k = false → dm.dispose_and_delete k = (dm, false)) := by
  constructor
  · intro h
    obtain ⟨d, hg, hmem⟩ := get_some_of_has dm k h
    have hdel := del_of_has_true dm k d hg h
    refine ⟨d, hg, ?_, ?_, ?_, ?_⟩
    · rw [hdel]
    · rw [hdel]
    · rw [hdel]
      exact has_filter_self dm.m_map (dm.disposed ++ [d]) k
    · rw [hdel]
      unfold DisposableMap.get
      rw [find?_filter_ne dm.m_map k k2 hne]
  · exact del_of_has_false dm k

/-- Witness for C3: the spec scenario — the registry holds `w1` under
`"/a"`; deleting `"/a"` succeeds, disposes exactly `w1`, and afterwards the
key is gone; deleting the absent `"/b"` fails and changes nothing. -/
theorem dispose_and_delete_spec_witness :
    (∃ d, (DisposableMap.mk [("/a", 1)] []).get "/a" = some d ∧
      ((DisposableMap.mk [("/a", 1)] []).dispose_and_delete "/a").2 = true ∧
      ((DisposableMap.mk [("/a", 1)] []).dispose_and_delete "/a").1.disposed =
        [] ++ [d] ∧
      ((DisposableMap.mk [("/a", 1)] []).dispose_and_delete "/a").1.has "/a" =
        false ∧
      ((DisposableMap.mk [("/a", 1)] []).dispose_and_delete "/a").1.get "/b" =
        (DisposableMap.mk [("/a", 1)] []).get "/b") ∧
    (DisposableMap.mk [("/a", 1)] []).dispose_and_delete "/b" =
      (DisposableMap.mk [("/a", 1)] [], false) :=
  ⟨(dispose_and_delete_spec ⟨[("/a", 1)], []⟩ "/a" "/b" (by decide)).1
      (by decide),
   (dispose_and_delete_spec ⟨[("/a", 1)], []⟩ "/b" "/a" (by decide)).2
      (by decide)⟩

/-- C4: for every finite sequence of registry calls applied to an initially
empty registry, the number of currently registered keys equals the number of
`set` calls that returned success minus the number of `dispose_and_delete`
calls that returned success (stated both as an exact balance, showing the
difference never underflows, and as the subtraction itself). -/
theorem registered_count_balance (ops : List RegOp) :
    (runTally emptyDM ops).1.keys.length + (runTally emptyDM ops).2.2 =
      (runTally emptyDM ops).2.1 ∧
    (runTally emptyDM ops).1.keys.length =
      (runTally emptyDM ops).2.1 - (runTally emptyDM ops).2.2 := by
  have h := runTally_accounting ops emptyDM (by decide)
  have h0 : emptyDM.m_map.length = 0 := rfl
  rw [h0] at h
  have hk : (runTally emptyDM ops).1.keys.length =
      (runTally emptyDM ops).1.m_map.length := by
    unfold DisposableMap.keys
    rw [List.length_map]
  constructor
  · omega
  · omega

/-- C5: `dispose()` releases every currently registered subscription exactly
once each — the ghost dispose log grows by exactly the list of stored
subscriptions, one release per entry, in iteration order — without removing
any entry from the underlying storage; calling it on an empty registry is a
no-op (no subscription released, registry unchanged). -/
theorem dispose_releases_each_once (dm : DisposableMap) :
    dm.dispose.m_map = dm.m_map ∧
    dm.dispose.disposed = dm.disposed ++ dm.m_map.map Prod.snd ∧
    (dm.m_map = [] → dm.dispose = dm) := by
  refine ⟨?_, ?_, ?_⟩
  · rw [dispose_eq]
  · rw [dispose_eq]
  · intro h
    obtain ⟨m, d⟩ := dm
    simp only at h
    subst h
    rw [dispose_eq]
    simp

/-- Witness for C5: disposing a two-entry registry releases both stored
subscriptions once each and keeps the entries; disposing the empty registry
is a no-op. -/
theorem dispose_releases_each_once_witness :
    (DisposableMap.mk [("/a", 1), ("/b", 2)] []).dispose.m_map =
      [("/a", 1), ("/b", 2)] ∧
    (DisposableMap.mk [("/a", 1), ("/b", 2)] []).dispose.disposed = [1, 2] ∧
    (DisposableMap.mk [] []).dispose = DisposableMap.mk [] [] :=
  ⟨(dispose_releases_each_once ⟨[("/a", 1), ("/b", 2)], []⟩).1,
   (dispose_releases_each_once ⟨[("/a", 1), ("/b", 2)], []⟩).2.1,
   (dispose_releases_each_once ⟨[], []⟩).2.2 rfl⟩

/-- C6: at every registry state reachable from the empty registry at most one
entry exists per key, and this invariant is preserved by every registry
operation; moreover `set` transitions a key only from absent to registered
(a success means the key was absent and is now present; on a present key the
insertion is rejected, not overwritten: the state is unchanged) and
`dispose_and_delete` transitions a key only from registered to absent. -/
theorem at_most_one_entry_per_key :
    (∀ ops : List RegOp, keysNodup (runOps emptyDM ops)) ∧
    (∀ (dm : DisposableMap) (k : String) (d : Nat), keysNodup dm →
      keysNodup (dm.set k d).1 ∧
      ((dm.set k d).2 = true →
        dm.has k = false ∧ (dm.set k d).1.has k = true) ∧
      ((dm.set k d).2 = false → dm.has k = true ∧ (dm.set k d).1 = dm)) ∧
    (∀ (dm : DisposableMap) (k : String), keysNodup dm →
      keysNodup (dm.dispose_and_delete k).1 ∧
      ((dm.dispose_and_delete k).2 = true →
        dm.has k = true ∧ (dm.dispose_and_delete k).1.has k = false) ∧
      ((dm.dispose_and_delete k).2 = false →
        dm.has k = false ∧ (dm.dispose_and_delete k).1 = dm)) ∧
    (∀ dm : DisposableMap, keysNodup dm → keysNodup dm.dispose) := by
  refine ⟨?_, ?_, ?_, ?_⟩
  · intro ops
    exact keysNodup_runOps ops emptyDM (by decide)
  · intro dm k d h
    refine ⟨keysNodup_set dm k d h, ?_, ?_⟩
    · intro hb
      cases hk : dm.has k with
      | true =>
          rw [set_of_has_true dm k d hk] at hb
          exact absurd hb (by simp)
      | false =>
          refine ⟨rfl, ?_⟩
          rw [set_of_has_false dm k d hk]
          exact (has_iff_mem _ k).2 ⟨d, List.mem_append_right _ (by simp)⟩
    · intro hb
      cases hk : dm.has k with
      | false =>
          rw [set_of_has_false dm k d hk] at hb
          exact absurd hb (by simp)
      | true =>
          exact ⟨rfl, by rw [set_of_has_true dm k d hk]⟩
  · intro dm k h
    refine ⟨keysNodup_del dm k h, ?_, ?_⟩
    · intro hb
      cases hk : dm.has k with
      | false =>
          rw [del_of_has_false dm k hk] at hb
          exact absurd hb (by simp)
      | true =>
          refine ⟨rfl, ?_⟩
          obtain ⟨d, hg, _⟩ := get_some_of_has dm k hk
          rw [del_of_has_true dm k d hg hk]
          exact has_filter_self dm.m_map (dm.disposed ++ [d]) k
    · intro hb
      cases hk : dm.has k with
      | true =>
          obtain ⟨d, hg, _⟩ := get_some_of_has dm k hk
          rw [del_of_has_true dm k d hg hk] at hb
          exact absurd hb (by simp)
      | false =>
          exact ⟨rfl, by rw [del_of_has_false dm k hk]⟩
  · exact keysNodup_dispose

/-- Witness for C6: on the one-entry registry holding `"/a"`, a second `set`
on `"/a"` is rejected with the state unchanged, and `dispose_and_delete` of
`"/a"` takes the key from registered to absent. -/
theorem at_most_one_entry_per_key_witness :
    ((DisposableMap.mk [("/a", 1)] []).has "/a" = true ∧
     ((DisposableMap.mk [("/a", 1)] []).set "/a" 2).1 =
       DisposableMap.mk [("/a", 1)] []) ∧
    ((DisposableMap.mk [("/a", 1)] []).has "/a" = true ∧
     ((DisposableMap.mk [("/a", 1)] []).dispose_and_delete "/a").1.has "/a" =
       false) :=
  ⟨(at_most_one_entry_per_key.2.1 ⟨[("/a", 1)], []⟩ "/a" 2 (by decide)).2.2
      (by decide),
   (at_most_one_entry_per_key.2.2.1 ⟨[("/a", 1)], []⟩ "/a" (by decide)).2.1
      (by decide)⟩

/-- C7: `restart_client()` invoked when no connection instance has been
created yet (the module-level `client` variable is still `undefined`) is a
no-op: it returns without error, issues no stop and no start, and leaves the
client variable unchanged. -/
theorem restart_client_no_client : restart_client none = (none, []) := rfl

/-- C8: `has(k)` returns `true` exactly when an entry is currently registered
under `k`.  It is a pure query by construction in this embedding: `has` is a
function from the registry state to a boolean alone, so it can change neither
the registry state nor any stored subscription. -/
theorem has_exact_membership (dm : DisposableMap) (k : String) :
    dm.has k = true ↔ ∃ d, (k, d) ∈ dm.m_map :=
  has_iff_mem dm k

/-- C9: registry-level `dispose()` is not idempotent: entries are not removed
from storage, so a second `dispose()` call releases every still-registered
subscription a second time — after two calls the ghost dispose log has grown
by the stored-subscription list twice, once per call — and on any non-empty
registry the second call changes the state again. -/
theorem dispose_not_idempotent (dm : DisposableMap) :
    dm.dispose.dispose.m_map = dm.m_map ∧
    dm.dispose.dispose.disposed =
      dm.disposed ++ dm.m_map.map Prod.snd ++ dm.m_map.map Prod.snd ∧
    (dm.m_map ≠ [] → dm.dispose.dispose ≠ dm.dispose) := by
  refine ⟨?_, ?_, ?_⟩
  · rw [dispose_eq, dispose_eq]
  · rw [dispose_eq, dispose_eq]
  · intro hne heq
    have h2 := congrArg (fun x => x.disposed.length) heq
    simp only [dispose_eq] at h2
    simp only [List.length_append, List.length_map] at h2
    have hm : dm.m_map.length = 0 := by omega
    exact hne (List.length_eq_zero.1 hm)

/-- Witness for C9: on a one-entry registry, two `dispose()` calls release
the stored subscription twice, and the second call changed the state. -/
theorem dispose_not_idempotent_witness :
    (DisposableMap.mk [("/a", 1)] []).dispose.dispose.m_map = [("/a", 1)] ∧
    (DisposableMap.mk [("/a", 1)] []).dispose.dispose.disposed = [1, 1] ∧
    (DisposableMap.mk [("/a", 1)] []).dispose.dispose ≠
      (DisposableMap.mk [("/a", 1)] []).dispose :=
  ⟨(dispose_not_idempotent ⟨[("/a", 1)], []⟩).1,
   (dispose_not_idempotent ⟨[("/a", 1)], []⟩).2.1,
   (dispose_not_idempotent ⟨[("/a", 1)], []⟩).2.2 (by simp)⟩

/-- C10: `deactivate()` returns `undefined` and attempts no stop of the
connection when no client instance was ever created; when a client exists it
returns the result of stopping that client, issuing exactly that one stop. -/
theorem deactivate_spec :
    deactivate none = (none, []) ∧
    ∀ c : ClientState,
      deactivate (some c) = (some (stopClient c), [ClientAction.stopA]) :=
  ⟨rfl, fun _ => rfl⟩
